import Mathlib

/-!
Verification of the OpenRPC spec-generation pipeline (scripts/generate-specs.js):
reference resolution, allOf schema composition, canonicalization (components
removal, method sorting, generated-file marker), and the batch driver.

JSON/YAML values are embedded as the inductive `Node`; JS objects are ordered
association lists of string keys.
-/

/-- A JSON/YAML value: the tree of nodes a spec document is made of.
Objects keep their key insertion order, as JavaScript objects do. -/
inductive Node where
  | null : Node
  | bool (b : Bool) : Node
  | num (n : Int) : Node
  | str (s : String) : Node
  | arr (items : List Node) : Node
  | obj (entries : List (String × Node)) : Node

mutual

/-- Structural equality test for nodes. -/
def Node.beq : Node → Node → Bool
  | .null, .null => true
  | .bool a, .bool b => a == b
  | .num a, .num b => a == b
  | .str a, .str b => a == b
  | .arr a, .arr b => Node.beqList a b
  | .obj a, .obj b => Node.beqEntries a b
  | _, _ => false

/-- Structural equality test for node lists. -/
def Node.beqList : List Node → List Node → Bool
  | [], [] => true
  | x :: xs, y :: ys => Node.beq x y && Node.beqList xs ys
  | _, _ => false

/-- Structural equality test for object entry lists. -/
def Node.beqEntries : List (String × Node) → List (String × Node) → Bool
  | [], [] => true
  | (k, v) :: xs, (k', v') :: ys => k == k' && Node.beq v v' && Node.beqEntries xs ys
  | _, _ => false

end

mutual

def Node.eq_of_beq : (a b : Node) → Node.beq a b = true → a = b
  | .null, .null, _ => rfl
  | .bool a, .bool b, h => by
      simpa [Node.beq] using congrArg Node.bool (by simpa [Node.beq] using h : a = b)
  | .num a, .num b, h => by
      have : a = b := by simpa [Node.beq] using h
      exact congrArg Node.num this
  | .str a, .str b, h => by
      have : a = b := by simpa [Node.beq] using h
      exact congrArg Node.str this
  | .arr a, .arr b, h => congrArg Node.arr (Node.eqList_of_beq a b h)
  | .obj a, .obj b, h => congrArg Node.obj (Node.eqEntries_of_beq a b h)

def Node.eqList_of_beq : (a b : List Node) → Node.beqList a b = true → a = b
  | [], [], _ => rfl
  | x :: xs, y :: ys, h => by
      have h' := h
      simp only [Node.beqList, Bool.and_eq_true] at h'
      exact by rw [Node.eq_of_beq x y h'.1, Node.eqList_of_beq xs ys h'.2]

def Node.eqEntries_of_beq : (a b : List (String × Node)) → Node.beqEntries a b = true → a = b
  | [], [], _ => rfl
  | (k, v) :: xs, (k', v') :: ys, h => by
      have h' := h
      simp only [Node.beqEntries, Bool.and_eq_true, beq_iff_eq] at h'
      exact by rw [h'.1.1, Node.eq_of_beq v v' h'.1.2, Node.eqEntries_of_beq xs ys h'.2]

end

mutual

def Node.beq_refl : (a : Node) → Node.beq a a = true
  | .null => rfl
  | .bool a => by simp [Node.beq]
  | .num a => by simp [Node.beq]
  | .str a => by simp [Node.beq]
  | .arr a => Node.beqList_refl a
  | .obj a => Node.beqEntries_refl a

def Node.beqList_refl : (a : List Node) → Node.beqList a a = true
  | [] => rfl
  | x :: xs => by
      simp only [Node.beqList, Bool.and_eq_true]
      exact ⟨Node.beq_refl x, Node.beqList_refl xs⟩

def Node.beqEntries_refl : (a : List (String × Node)) → Node.beqEntries a a = true
  | [] => rfl
  | (k, v) :: xs => by
      simp [Node.beqEntries, Node.beq_refl v, Node.beqEntries_refl xs]

end

instance : DecidableEq Node := fun a b =>
  if h : Node.beq a b = true then .isTrue (Node.eq_of_beq a b h)
  else .isFalse (fun he => h (he ▸ Node.beq_refl a))

namespace Node

/-- JavaScript truthiness of a value. -/
def truthy : Node → Bool
  | .null => false
  | .bool b => b
  | .num n => n != 0
  | .str s => s != ""
  | .arr _ => true
  | .obj _ => true

end Node

/-- First value bound to key `k` in an entry list (JS property read). -/
def getEntry (es : List (String × Node)) (k : String) : Option Node :=
  (es.find? (fun e => e.1 == k)).map (·.2)

/-- Property read on a node: `n[k]`, `none` when `n` is not an object. -/
def getKey : Node → String → Option Node
  | .obj es, k => getEntry es k
  | _, _ => none

/-- Remove every entry with key `k` (JS `delete obj[k]`). -/
def eraseEntries (es : List (String × Node)) (k : String) : List (String × Node) :=
  es.filter (fun e => e.1 != k)

/-- Replace the value at key `k` in place, keeping entry order. -/
def setEntry (es : List (String × Node)) (k : String) (v : Node) : List (String × Node) :=
  es.map (fun e => if e.1 == k then (e.1, v) else e)

/-! ### Path-string helpers (model of the `path` module operations used) -/

/-- `path.basename`: the part of a path after the final slash. -/
def pathBasename (p : String) : String :=
  String.mk ((p.data.reverse.takeWhile (fun c => c ≠ '/')).reverse)

/-- `path.isAbsolute`: the path starts with a slash. -/
def pathIsAbsolute (p : String) : Bool :=
  p.data.headD ' ' == '/'

/-- Does `hay` contain `needle` as a substring (JS `String.prototype.includes`)? -/
def strContainsSub (hay needle : String) : Bool :=
  hay.data.tails.any (fun t => needle.data.isPrefixOf t)

/-- Does `s` end with `suf` (JS `String.prototype.endsWith`)? -/
def strEndsWith (s suf : String) : Bool :=
  suf.data.isSuffixOf s.data

/-- Does `s` start with `pre` (JS `String.prototype.startsWith`)? -/
def strStartsWith (s pre : String) : Bool :=
  pre.data.isPrefixOf s.data

/-- `path.basename(p, path.extname(p))`: strip the final `.ext`, with Node's
rule that a dot in first position of the base name starts no extension. -/
def stripExt (s : String) : String :=
  let r := s.data.reverse
  let after := r.takeWhile (fun c => c ≠ '.')
  if after.length = r.length then s
  else if after.length + 1 = r.length then s
  else String.mk ((r.drop (after.length + 1)).reverse)

/-- The fixed specifications input directory. -/
def SPECS_DIR : String := "alchemy/specs"

/-- `path.join(SPECS_DIR, name)`. -/
def joinSpecs (name : String) : String :=
  String.mk (SPECS_DIR.data ++ ('/' :: name.data))

/-- The on-disk specifications directory: file name to parsed content. -/
abbrev SpecFS := List (String × Node)

/-- Content of the file at path `p`, when `p` points into the specs directory. -/
def fileAtPath (fs : SpecFS) (p : String) : Option Node :=
  (fs.find? (fun e => joinSpecs e.1 == p)).map (·.2)

/-! ### Reference resolution

Modelled from the spec: the reference-resolution engine
(`@apidevtools/json-schema-ref-parser`, invoked with `dereference.circular:
false`) is an external library, so it is embedded following §4.1 of the design:
depth-first traversal, an in-progress location set for cycle detection, and a
hard failure on any cycle or missing target. A fuel parameter makes the
recursion well-founded; running out of fuel is its own error, distinct from the
circular-reference error. -/

/-- A parsed location expression: target document plus path within it. -/
structure Loc where
  doc : String
  path : List String
deriving DecidableEq

deriving instance DecidableEq for Except

/-- Errors that abort a single document's pipeline. -/
inductive GenError where
  | circularRef (l : Loc)
  | missingRef (l : Loc)
  | fuelOut
  | sortTypeError
deriving DecidableEq

/-- Split a character list at the first occurrence of `sep`, if present. -/
def splitFirstAux (sep : Char) : List Char → Option (List Char × List Char)
  | [] => none
  | c :: rest =>
    if c = sep then some ([], rest)
    else (splitFirstAux sep rest).map (fun pr => (c :: pr.1, pr.2))

/-- Split a character list at every occurrence of `sep`. -/
def splitChars (sep : Char) : List Char → List (List Char)
  | [] => [[]]
  | c :: rest =>
    match splitChars sep rest with
    | [] => [[c]]
    | h :: t => if c = sep then [] :: h :: t else (c :: h) :: t

/-- Split a pointer path `/a/b` into its segments. -/
def pathSegs (p : List Char) : List String :=
  ((splitChars '/' p).map String.mk).filter (fun s => s ≠ "")

/-- Parse a location expression relative to the current document: either a
path within the same document or `<other-file>#<path-within-other-file>`;
an empty or absent target document means the current document. -/
def parseLoc (cur : String) (expr : String) : Loc :=
  match splitFirstAux '#' expr.data with
  | none => ⟨if expr = "" then cur else expr, []⟩
  | some (d, p) => ⟨if d = [] then cur else String.mk d, pathSegs p⟩

/-- Numeric value of a nonempty all-digit segment (array index in a pointer). -/
def digitsToNat? (l : List Char) : Option Nat :=
  match l with
  | [] => none
  | _ =>
    l.foldl (fun acc c =>
      acc.bind (fun a => if c.isDigit then some (a * 10 + (c.toNat - 48)) else none)) (some 0)

/-- Walk a pointer path down a node tree. -/
def walkPath : List String → Node → Option Node
  | [], n => some n
  | s :: rest, .obj es => (getEntry es s).bind (walkPath rest)
  | s :: rest, .arr xs => (digitsToNat? s.data).bind (fun i => (xs.get? i).bind (walkPath rest))
  | _ :: _, _ => none

/-- The subtree a location denotes, loading its document from the specs dir. -/
def navigate (fs : SpecFS) (l : Loc) : Option Node :=
  (List.lookup l.doc fs).bind (walkPath l.path)

/-- The node form of a reference: a mapping with a single reference key. -/
def mkRef (e : String) : Node := .obj [("$ref", .str e)]

/-- Recognize a reference node and return its location expression. -/
def isRef : Node → Option String
  | .obj [(k, .str e)] => if k = "$ref" then some e else none
  | _ => none

/-- Resolve every reference in a node, depth-first, keeping the in-progress
location stack for cycle detection. The fuel decreases on every recursive
step, making the recursion structural; exhaustion is a distinct error. -/
def resolveNode (fs : SpecFS) : Nat → String → List Loc → Node → Except GenError Node
  | 0, _, _, _ => .error .fuelOut
  | fuel + 1, cur, stack, n =>
    match isRef n with
    | some e =>
      let l := parseLoc cur e
      if l ∈ stack then .error (.circularRef l)
      else
        match navigate fs l with
        | none => .error (.missingRef l)
        | some sub => resolveNode fs fuel l.doc (l :: stack) sub
    | none =>
      match n with
      | .arr xs => Node.arr <$> xs.mapM (resolveNode fs fuel cur stack)
      | .obj es =>
        Node.obj <$> es.mapM (fun e => (resolveNode fs fuel cur stack e.2).map (fun v => (e.1, v)))
      | other => .ok other

/-! ### allOf composition

Modelled from the spec: the pairwise component merge (`json-schema-merge-allof`)
is an external library, so its per-key rules are embedded following §4.2:
`properties` merge recursively key-by-key, `type` conflicts between a
structural and a non-structural type are schema conflicts while other scalar
conflicts resolve last-writer-wins, and other array-valued keys (`required`,
enumerations) concatenate with first-occurrence de-duplication. A fuel
parameter makes the recursion well-founded; exhaustion reports as a merge
failure, which the caller treats like any other merge failure. -/

/-- A component merge that cannot be reconciled (schema conflict). -/
inductive MergeErr where
  | conflict
deriving DecidableEq

/-- Concatenate keeping only the first occurrence of each value. -/
def dedupKeepFirst (l : List Node) : List Node :=
  l.foldl (fun acc x => if x ∈ acc then acc else acc ++ [x]) []

/-- Merge rule for a key with no special treatment: arrays concatenate and
de-duplicate, anything else is last-writer-wins. -/
def mergeDefault : Node → Node → Except MergeErr Node
  | .arr xs, .arr ys => .ok (.arr (dedupKeepFirst (xs ++ ys)))
  | _, v2 => .ok v2

/-- Merge two component schemas into one, folding the later component's
entries onto the earlier one per key: `properties` merge recursively
key-by-key, `type` conflicts involving a structural type fail, other scalar
keys are last-writer-wins, other array keys concatenate and de-duplicate.
The fuel decreases on every recursive step (structural recursion);
exhaustion reports as a merge conflict. -/
def mergeTwo : Nat → Node → Node → Except MergeErr Node
  | 0, _, _ => .error .conflict
  | fuel + 1, .obj ea, .obj eb =>
    Node.obj <$> eb.foldlM (fun base e =>
      match getEntry base e.1 with
      | none => pure (base ++ [e])
      | some v1 =>
        (if e.1 = "properties" then
          match v1, e.2 with
          | .obj p1, .obj p2 =>
            Node.obj <$> p2.foldlM (fun pb pe =>
              match getEntry pb pe.1 with
              | none => pure (pb ++ [pe])
              | some pv1 => (mergeTwo fuel pv1 pe.2).map (fun v' => setEntry pb pe.1 v')) p1
          | _, _ => mergeDefault v1 e.2
        else if e.1 = "type" then
          match v1, e.2 with
          | .str s1, .str s2 =>
            if s1 = s2 ∨ (s1 ≠ "object" ∧ s2 ≠ "object") then pure (.str s2)
            else .error .conflict
          | _, _ => mergeDefault v1 e.2
        else mergeDefault v1 e.2).map (fun v' => setEntry base e.1 v')) ea
  | _ + 1, _, _ => .error .conflict

/-- Merge a node's whole `allOf` list onto the node's own sibling keys,
components applied in list order. -/
def mergeAllOfList (fuel : Nat) (es : List (String × Node)) (comps : List Node) :
    Except MergeErr Node :=
  comps.foldlM (fun acc c => mergeTwo fuel acc c) (Node.obj (eraseEntries es "allOf"))

/-- `mergeAllOfSchemas` from the source: recursively merge `allOf` lists
throughout an object tree. A failed merge is caught, reported as a warning
(the returned flag) and the node is returned unchanged, children included.
The merged result is itself re-processed, since merging can expose further
composition. Fuel decreases on every recursive step (structural recursion);
exhaustion raises the warning flag. -/
def mergeAllOfSchemas : Nat → Node → Node × Bool
  | 0, n => (n, true)
  | fuel + 1, .arr xs =>
    let rs := xs.map (mergeAllOfSchemas fuel)
    (.arr (rs.map Prod.fst), rs.any Prod.snd)
  | fuel + 1, .obj es =>
    match getEntry es "allOf" with
    | some v =>
      if v.truthy then
        match v with
        | .arr comps =>
          match mergeAllOfList fuel es comps with
          | .ok merged => mergeAllOfSchemas fuel merged
          | .error _ => (.obj es, true)
        | _ => (.obj es, true)
      else
        let rs := es.map (fun e => (e.1, mergeAllOfSchemas fuel e.2))
        (.obj (rs.map (fun p => (p.1, p.2.1))), rs.any (fun p => p.2.2))
    | none =>
      let rs := es.map (fun e => (e.1, mergeAllOfSchemas fuel e.2))
      (.obj (rs.map (fun p => (p.1, p.2.1))), rs.any (fun p => p.2.2))
  | _ + 1, n => (n, false)

mutual

/-- No node of the tree carries an `allOf` key with a truthy value. -/
def noTruthyAllOf : Node → Bool
  | .arr xs => noTruthyAllOfList xs
  | .obj es =>
    (match getEntry es "allOf" with
     | some v => !v.truthy
     | none => true) && noTruthyAllOfEntries es
  | _ => true

def noTruthyAllOfList : List Node → Bool
  | [] => true
  | x :: xs => noTruthyAllOf x && noTruthyAllOfList xs

def noTruthyAllOfEntries : List (String × Node) → Bool
  | [] => true
  | (_, v) :: rest => noTruthyAllOf v && noTruthyAllOfEntries rest

end

/-! ### Method sorting

The source sorts `methods` with `(a, b) => a.name.localeCompare(b.name)` and
JavaScript's `Array.prototype.sort`, which is guaranteed stable. -/

/-- Compare two lists of naturals lexicographically. -/
def cmpNats : List Nat → List Nat → Ordering
  | [], [] => .eq
  | [], _ :: _ => .lt
  | _ :: _, [] => .gt
  | x :: xs, y :: ys => if x < y then .lt else if y < x then .gt else cmpNats xs ys

/-- Model of `String.prototype.localeCompare` under the default locale
(ICU root collation), restricted to the ASCII range: characters compare
case-insensitively first (primary level), and on a primary tie lowercase
orders before uppercase (tertiary level). In particular `"a"` orders before
`"B"`, unlike ordinary code-unit comparison. -/
def localeCmp (a b : String) : Ordering :=
  (cmpNats (a.data.map (fun c => c.toLower.toNat)) (b.data.map (fun c => c.toLower.toNat))).then
    (cmpNats (a.data.map (fun c => if c.isLower then 0 else 1))
      (b.data.map (fun c => if c.isLower then 0 else 1)))

/-- The `name` field of a method entry, when it is a string. -/
def methodName (m : Node) : Option String :=
  match getKey m "name" with
  | some (.str s) => some s
  | _ => none

/-- The `name` field with a default, for comparator purposes. -/
def nameD (m : Node) : String := (methodName m).getD ""

/-- The comparator order used by the source's sort call: `a` may come no
later than `b` when `a.name.localeCompare(b.name) <= 0`. -/
def nameLe (a b : Node) : Prop := localeCmp (nameD a) (nameD b) ≠ .gt

instance : DecidableRel nameLe := fun a b => by
  unfold nameLe; infer_instance

/-- The stable sort of the methods sequence by name, as `Array.prototype.sort`
performs with the source's comparator. -/
def sortMethodsList (ms : List Node) : List Node :=
  List.insertionSort nameLe ms

/-- The method-sorting canonicalization step: sorts a top-level `methods`
sequence in place. Reading `.name` off an entry that has no string name throws
in JavaScript once the comparator runs, which requires at least two entries;
the thrown error aborts the document. -/
def sortMethodsNode (n : Node) : Except GenError Node :=
  match n with
  | .obj es =>
    match getEntry es "methods" with
    | some (.arr xs) =>
      if xs.all (fun m => (methodName m).isSome) then
        .ok (.obj (setEntry es "methods" (.arr (sortMethodsList xs))))
      else if xs.length ≤ 1 then .ok n
      else .error .sortTypeError
    | _ => .ok n
  | _ => .ok n

/-- `merged.methods?.length || 0`: the reported method count. -/
def methodCount (n : Node) : Nat :=
  match getKey n "methods" with
  | some (.arr xs) => xs.length
  | some (.str s) => s.length
  | _ => 0

/-- `if (merged.components) delete merged.components`. -/
def removeComponents (n : Node) : Node :=
  match n with
  | .obj es =>
    match getEntry es "components" with
    | some v => if v.truthy then .obj (eraseEntries es "components") else n
    | none => n
  | _ => n

/-- `dereferenceSpec` from the source: resolve every reference, merge `allOf`
schemas (warnings do not fail the document), drop the `components` section,
sort the methods, and return the spec with its method count. -/
def dereferenceSpec (fs : SpecFS) (fuel : Nat) (docName : String) (content : Node) :
    Except GenError (Node × Nat) :=
  match resolveNode fs fuel docName [] content with
  | .error e => .error e
  | .ok resolved =>
    let merged := (mergeAllOfSchemas fuel resolved).1
    let cleaned := removeComponents merged
    match sortMethodsNode cleaned with
    | .error e => .error e
    | .ok sorted => .ok (sorted, methodCount sorted)

/-! ### Artifact writing -/

/-- The generated-file marker key prepended to every artifact. -/
def GEN_WARNING_KEY : String := "x-generated-warning"

/-- The fixed warning string stored under the marker key. -/
def GEN_WARNING_VAL : String :=
  "⚠️ This file is auto-generated from alchemy/specs/. Do not edit manually."

/-- JavaScript object-literal property definition: an existing key is updated
in place (keeping its original position), a new key is appended. -/
def jsObjSet (es : List (String × Node)) (k : String) (v : Node) : List (String × Node) :=
  if es.any (fun e => e.1 == k) then es.map (fun e => if e.1 == k then (e.1, v) else e)
  else es ++ [(k, v)]

/-- Spreading `es` into an object literal that already holds `base`. -/
def jsSpread (base fields : List (String × Node)) : List (String × Node) :=
  fields.foldl (fun acc e => jsObjSet acc e.1 e.2) base

/-- The own enumerable entries `{...spec}` contributes: an object spreads its
entries, an array or string spreads index-keyed elements, primitives spread
nothing. -/
def spreadEntries : Node → List (String × Node)
  | .obj es => es
  | .arr xs => xs.mapIdx (fun i x => (toString i, x))
  | .str s => s.data.mapIdx (fun i c => (toString i, .str (String.mk [c])))
  | _ => []

/-- `writeSpec` from the source: the artifact body
`{'x-generated-warning': ..., ...spec}`. -/
def writeSpec (spec : Node) : Node :=
  .obj (jsSpread [(GEN_WARNING_KEY, .str GEN_WARNING_VAL)] (spreadEntries spec))

/-! ### Batch driver -/

/-- Result of one `generateSpecs` run. `notFound` is the incremental-mode
early return for a missing file; `empty` the full-mode early return when no
spec files exist; `ran` carries the per-file outcome (`none` = the document
failed and was reported, `some` = its spec and method count, written out). -/
inductive RunResult where
  | notFound (path : String)
  | empty : RunResult
  | ran (incremental : Bool) (outcomes : List (String × Option (Node × Nat)))
deriving DecidableEq

/-- Run one document through the per-document pipeline, catching its errors. -/
def processFile (fs : SpecFS) (fuel : Nat) (name : String) : Option (Node × Nat) :=
  (List.lookup name fs).bind (fun c => (dereferenceSpec fs fuel name c).toOption)

/-- A file the full build picks up: spec extension, not a private fragment. -/
def eligibleName (n : String) : Bool :=
  (strEndsWith n ".yaml" || strEndsWith n ".yml") && !strStartsWith n "_"

/-- The spec files a full build enumerates, in directory order. -/
def eligibleFiles (fs : SpecFS) : List String :=
  (fs.map Prod.fst).filter eligibleName

/-- The full-mode build: process every eligible file independently. -/
def fullRun (fs : SpecFS) (fuel : Nat) : RunResult :=
  let files := eligibleFiles fs
  if files = [] then .empty
  else .ran false (files.map (fun n => (n, processFile fs fuel n)))

/-- `generateSpecs` from the source. With a specific file: a shared-fragment
path falls through to a full build; otherwise only that file is processed,
returning early (without failing) when it does not exist. -/
def generateSpecs (fs : SpecFS) (specificFile : Option String) (fuel : Nat) : RunResult :=
  match specificFile with
  | none => fullRun fs fuel
  | some p =>
    let fileName := pathBasename p
    if strStartsWith fileName "_" || strContainsSub p "_components" then
      fullRun fs fuel
    else
      let fullPath := if pathIsAbsolute p then p else joinSpecs fileName
      match fileAtPath fs fullPath with
      | none => .notFound fullPath
      | some content =>
        .ran true [(fileName, (dereferenceSpec fs fuel fileName content).toOption)]

/-- The aggregate statistics the run reports. -/
structure Summary where
  attempted : Nat
  succeeded : Nat
  totalMethods : Nat
deriving DecidableEq

/-- The summary a run produces: every attempted document is counted, only
successful ones contribute to the success and method totals. -/
def summaryOf : RunResult → Summary
  | .ran _ outs =>
    { attempted := outs.length
      succeeded := (outs.filter (fun o => o.2.isSome)).length
      totalMethods := (outs.filterMap (fun o => o.2.map Prod.snd)).foldl (· + ·) 0 }
  | _ => ⟨0, 0, 0⟩

/-- The process exit status the CLI entry signals: the driver catches every
per-document error inside the run, so its promise always resolves and the
`.catch(... exit 1)` handler never fires. -/
def exitCode (_ : RunResult) : Nat := 0

/-- The outcome a run records for the named input file. -/
def outcomeOf (r : RunResult) (name : String) : Option (Option (Node × Nat)) :=
  match r with
  | .ran _ outs => List.lookup name outs
  | _ => none

/-- The artifacts a run writes: one `<base>.json` per successful document. -/
def writtenOf : RunResult → List (String × Node)
  | .ran _ outs =>
    outs.filterMap (fun o => o.2.map (fun sp => (stripExt o.1 ++ ".json", writeSpec sp.1)))
  | _ => []

/-- The artifact a run writes for the named input file, if any. -/
def artifactFor (r : RunResult) (name : String) : Option (Option Node) :=
  (outcomeOf r name).map (fun oc => oc.map (fun sp => writeSpec sp.1))

/-! ### Helper lemmas about the driver -/

theorem lookup_map_self {β : Type} (f : String → β) :
    ∀ (l : List String) (d : String), d ∈ l →
      List.lookup d (l.map (fun n => (n, f n))) = some (f d) := by
  intro l
  induction l with
  | nil => intro d hd; cases hd
  | cons a t ih =>
    intro d hd
    simp only [List.map, List.lookup]
    by_cases h : d = a
    · subst h; simp
    · have hb : (d == a) = false := by simpa using h
      rw [hb]
      exact ih d (by
        rcases List.mem_cons.mp hd with h1 | h1
        · exact absurd h1 h
        · exact h1)

theorem lookup_eq_some_of_mem_fst :
    ∀ (fs : SpecFS) (d : String), d ∈ fs.map Prod.fst → ∃ c, List.lookup d fs = some c := by
  intro fs
  induction fs with
  | nil => intro d hd; cases hd
  | cons e t ih =>
    intro d hd
    rw [List.map_cons, List.mem_cons] at hd
    simp only [List.lookup]
    by_cases h : d = e.1
    · subst h; simp
    · have hb : (d == e.1) = false := by simpa using h
      rw [hb]
      exact ih d (hd.resolve_left h)

theorem joinSpecs_inj {a b : String} (h : joinSpecs a = joinSpecs b) : a = b := by
  unfold joinSpecs at h
  have h2 : SPECS_DIR.data ++ ('/' :: a.data) = SPECS_DIR.data ++ ('/' :: b.data) := by
    have := congrArg String.data h
    simpa using this
  have h3 : a.data = b.data := by
    have := List.append_cancel_left h2
    simpa using this
  exact String.ext h3

theorem fileAtPath_joinSpecs (fs : SpecFS) (d : String) :
    fileAtPath fs (joinSpecs d) = List.lookup d fs := by
  induction fs with
  | nil => rfl
  | cons e t ih =>
    unfold fileAtPath at ih ⊢
    simp only [List.find?, List.lookup]
    by_cases h : e.1 = d
    · subst h; simp
    · have hb1 : (joinSpecs e.1 == joinSpecs d) = false := by
        simp only [beq_eq_false_iff_ne]
        exact fun hc => h (joinSpecs_inj hc)
      have hb2 : (d == e.1) = false := by
        simp only [beq_eq_false_iff_ne]
        exact fun hc => h hc.symm
      rw [hb1, hb2]
      exact ih

theorem pathBasename_no_slash {p : String} (h : ∀ c ∈ p.data, c ≠ '/') :
    pathBasename p = p := by
  unfold pathBasename
  have ht : p.data.reverse.takeWhile (fun c => c ≠ '/') = p.data.reverse := by
    apply List.takeWhile_eq_self_iff.mpr
    intro c hc
    simpa using h c (List.mem_reverse.mp hc)
  rw [ht, List.reverse_reverse]

theorem pathIsAbsolute_no_slash {p : String} (h : ∀ c ∈ p.data, c ≠ '/') :
    pathIsAbsolute p = false := by
  unfold pathIsAbsolute
  cases hd : p.data with
  | nil => simp
  | cons c t =>
    have : c ≠ '/' := h c (by rw [hd]; exact List.mem_cons_self c t)
    simpa using this

theorem filter_pair_isSome_length {β : Type} (f : String → Option β) :
    ∀ l : List String,
      ((l.map (fun n => (n, f n))).filter (fun o => o.2.isSome)).length =
        (l.filter (fun n => (f n).isSome)).length := by
  intro l
  induction l with
  | nil => rfl
  | cons a t ih =>
    simp only [List.map, List.filter]
    cases hfa : (f a).isSome <;> simp [ih]

/-! ### Claim C9 -/

/-- C9: when a full-mode run finds zero eligible specification documents in
the input directory (no `.yaml`/`.yml` files that are not `_`-prefixed
fragments), the run completes successfully — exit status zero — and produces
an empty Summary, rather than failing. -/
theorem claim_C9_empty_full_run (fs : SpecFS) (fuel : Nat)
    (h : eligibleFiles fs = []) :
    generateSpecs fs none fuel = .empty ∧
    summaryOf (generateSpecs fs none fuel) = ⟨0, 0, 0⟩ ∧
    exitCode (generateSpecs fs none fuel) = 0 := by
  have hg : generateSpecs fs none fuel = .empty := by
    simp [generateSpecs, fullRun, h]
  exact ⟨hg, by rw [hg]; rfl, rfl⟩

theorem claim_C9_empty_full_run_witness :
    eligibleFiles [("_shared.yaml", Node.null), ("readme.md", Node.null)] = [] ∧
    (generateSpecs [("_shared.yaml", Node.null), ("readme.md", Node.null)] none 5 = .empty ∧
     summaryOf (generateSpecs [("_shared.yaml", Node.null), ("readme.md", Node.null)] none 5) =
       ⟨0, 0, 0⟩ ∧
     exitCode (generateSpecs [("_shared.yaml", Node.null), ("readme.md", Node.null)] none 5) = 0) :=
  ⟨by decide, claim_C9_empty_full_run _ 5 (by decide)⟩

/-! ### Claim C10 -/

/-- C10: invoking the driver in incremental mode with a changed path that
names a non-fragment file not present in the specifications directory makes
the run return early: no document is processed, there is no fallback to full
mode, and no failure is signalled to the caller. -/
theorem claim_C10_missing_incremental_target (fs : SpecFS) (p : String) (fuel : Nat)
    (h1 : strStartsWith (pathBasename p) "_" = false)
    (h2 : strContainsSub p "_components" = false)
    (h3 : fileAtPath fs (if pathIsAbsolute p then p else joinSpecs (pathBasename p)) = none) :
    generateSpecs fs (some p) fuel =
      .notFound (if pathIsAbsolute p then p else joinSpecs (pathBasename p)) ∧
    summaryOf (generateSpecs fs (some p) fuel) = ⟨0, 0, 0⟩ ∧
    exitCode (generateSpecs fs (some p) fuel) = 0 ∧
    (∀ inc outs, generateSpecs fs (some p) fuel ≠ .ran inc outs) := by
  have hg : generateSpecs fs (some p) fuel =
      .notFound (if pathIsAbsolute p then p else joinSpecs (pathBasename p)) := by
    simp [generateSpecs, h1, h2, h3]
  refine ⟨hg, by rw [hg]; rfl, rfl, ?_⟩
  intro inc outs hco
  rw [hg] at hco
  exact RunResult.noConfusion hco

theorem claim_C10_missing_incremental_target_witness :
    (strStartsWith (pathBasename "missing.yaml") "_" = false ∧
     strContainsSub "missing.yaml" "_components" = false ∧
     fileAtPath [("other.yaml", Node.null)]
       (if pathIsAbsolute "missing.yaml" then "missing.yaml"
        else joinSpecs (pathBasename "missing.yaml")) = none) ∧
    (generateSpecs [("other.yaml", Node.null)] (some "missing.yaml") 5 =
       .notFound
         (if pathIsAbsolute "missing.yaml" then "missing.yaml"
          else joinSpecs (pathBasename "missing.yaml")) ∧
     summaryOf (generateSpecs [("other.yaml", Node.null)] (some "missing.yaml") 5) = ⟨0, 0, 0⟩ ∧
     exitCode (generateSpecs [("other.yaml", Node.null)] (some "missing.yaml") 5) = 0 ∧
     (∀ inc outs,
        generateSpecs [("other.yaml", Node.null)] (some "missing.yaml") 5 ≠ .ran inc outs)) :=
  ⟨⟨by decide, by decide, by decide⟩,
   claim_C10_missing_incremental_target _ _ 5 (by decide) (by decide) (by decide)⟩

/-! ### Claim C2 -/

/-- C2 counterexample: a batch run in which the only document fails (its
reference target is missing) still signals success — exit status zero — to
its caller, contradicting the claim that the overall run outcome is non-zero
whenever at least one document fails. -/
theorem claim_C2_counterexample :
    (summaryOf (generateSpecs [("bad.yaml", mkRef "#/nope")] none 5)).attempted = 1 ∧
    (summaryOf (generateSpecs [("bad.yaml", mkRef "#/nope")] none 5)).succeeded = 0 ∧
    exitCode (generateSpecs [("bad.yaml", mkRef "#/nope")] none 5) = 0 := by
  decide

/-- C2 (amended): a full batch run always produces a Summary covering every
attempted document — the outcome list enumerates exactly the eligible files
and the attempted count equals their number, with the succeeded count the
number of documents that produced output — but the run outcome signalled to
the caller is always success (exit status zero), regardless of per-document
failures: the driver catches every document error, so its promise resolves. -/
theorem claim_C2_summary_covers_but_exit_zero (fs : SpecFS) (fuel : Nat)
    (h : eligibleFiles fs ≠ []) :
    exitCode (generateSpecs fs none fuel) = 0 ∧
    ∃ outs, generateSpecs fs none fuel = .ran false outs ∧
      outs.map Prod.fst = eligibleFiles fs ∧
      (summaryOf (generateSpecs fs none fuel)).attempted = (eligibleFiles fs).length ∧
      (summaryOf (generateSpecs fs none fuel)).succeeded =
        ((eligibleFiles fs).filter (fun n => (processFile fs fuel n).isSome)).length := by
  have hg : generateSpecs fs none fuel =
      .ran false ((eligibleFiles fs).map (fun n => (n, processFile fs fuel n))) := by
    simp [generateSpecs, fullRun, h]
  refine ⟨rfl, _, hg, ?_, ?_, ?_⟩
  · rw [List.map_map]
    have : (Prod.fst ∘ fun n => (n, processFile fs fuel n)) = id := by
      funext n; rfl
    rw [this, List.map_id]
  · rw [hg]; simp [summaryOf]
  · rw [hg]
    simp only [summaryOf]
    exact filter_pair_isSome_length _ _

theorem claim_C2_summary_covers_but_exit_zero_witness :
    (eligibleFiles [("good.yaml", Node.obj []), ("bad.yaml", mkRef "#/nope")] ≠ []) ∧
    (exitCode (generateSpecs [("good.yaml", Node.obj []), ("bad.yaml", mkRef "#/nope")] none 6) = 0 ∧
     ∃ outs,
       generateSpecs [("good.yaml", Node.obj []), ("bad.yaml", mkRef "#/nope")] none 6 =
         .ran false outs ∧
       outs.map Prod.fst =
         eligibleFiles [("good.yaml", Node.obj []), ("bad.yaml", mkRef "#/nope")] ∧
       (summaryOf
           (generateSpecs [("good.yaml", Node.obj []), ("bad.yaml", mkRef "#/nope")] none
             6)).attempted =
         (eligibleFiles [("good.yaml", Node.obj []), ("bad.yaml", mkRef "#/nope")]).length ∧
       (summaryOf
           (generateSpecs [("good.yaml", Node.obj []), ("bad.yaml", mkRef "#/nope")] none
             6)).succeeded =
         ((eligibleFiles [("good.yaml", Node.obj []), ("bad.yaml", mkRef "#/nope")]).filter
             (fun n =>
               (processFile [("good.yaml", Node.obj []), ("bad.yaml", mkRef "#/nope")] 6
                   n).isSome)).length) :=
  ⟨by decide, claim_C2_summary_covers_but_exit_zero _ 6 (by decide)⟩

/-! ### Claim C8 -/

/-- C8: per-document isolation. In a full batch run, every eligible
document's outcome is exactly the result of running that document alone
through the per-document pipeline — one document's failure neither aborts
nor alters any sibling's processing — and every document whose pipeline
succeeds has its artifact written; the outcome list marks as failed exactly
the documents whose own pipeline failed. -/
theorem claim_C8_isolation (fs : SpecFS) (fuel : Nat)
    (h : eligibleFiles fs ≠ []) :
    generateSpecs fs none fuel =
      .ran false ((eligibleFiles fs).map (fun n => (n, processFile fs fuel n))) ∧
    (∀ n, n ∈ eligibleFiles fs →
       outcomeOf (generateSpecs fs none fuel) n = some (processFile fs fuel n)) ∧
    (∀ n sp cnt, n ∈ eligibleFiles fs → processFile fs fuel n = some (sp, cnt) →
       (stripExt n ++ ".json", writeSpec sp) ∈ writtenOf (generateSpecs fs none fuel)) := by
  have hg : generateSpecs fs none fuel =
      .ran false ((eligibleFiles fs).map (fun n => (n, processFile fs fuel n))) := by
    simp [generateSpecs, fullRun, h]
  refine ⟨hg, ?_, ?_⟩
  · intro n hn
    rw [hg]
    exact lookup_map_self _ _ n hn
  · intro n sp cnt hn hp
    rw [hg]
    simp only [writtenOf, List.mem_filterMap]
    refine ⟨(n, some (sp, cnt)), ?_, rfl⟩
    rw [← hp]
    exact List.mem_map_of_mem _ hn

/-- Concrete batch for the C8 witness: three documents, the middle one with
an unresolvable reference. -/
def c8fs : SpecFS :=
  [("one.yaml", Node.obj [("title", Node.str "one")]),
   ("two.yaml", mkRef "#/nowhere"),
   ("three.yaml", Node.obj [("title", Node.str "three")])]

theorem claim_C8_isolation_witness :
    (eligibleFiles c8fs ≠ []) ∧
    (generateSpecs c8fs none 6 =
       .ran false ((eligibleFiles c8fs).map (fun n => (n, processFile c8fs 6 n))) ∧
     (∀ n, n ∈ eligibleFiles c8fs →
        outcomeOf (generateSpecs c8fs none 6) n = some (processFile c8fs 6 n)) ∧
     (∀ n sp cnt, n ∈ eligibleFiles c8fs → processFile c8fs 6 n = some (sp, cnt) →
        (stripExt n ++ ".json", writeSpec sp) ∈ writtenOf (generateSpecs c8fs none 6))) ∧
    outcomeOf (generateSpecs c8fs none 6) "two.yaml" = some none ∧
    outcomeOf (generateSpecs c8fs none 6) "one.yaml" =
      some (some (Node.obj [("title", Node.str "one")], 0)) ∧
    outcomeOf (generateSpecs c8fs none 6) "three.yaml" =
      some (some (Node.obj [("title", Node.str "three")], 0)) :=
  ⟨by decide, claim_C8_isolation c8fs 6 (by decide), by decide, by decide, by decide⟩

/-! ### Claim C3 -/

/-- C3: incremental/full equivalence. For a leaf specification document `d`
(an eligible file of the specs directory, named without a slash), the
incremental run on `d` records for `d` the same outcome — and writes for `d`
the same artifact, byte for byte — as the full run does: both modes push the
same file content through the same per-document pipeline. When the changed
name contains the shared-fragment marker, the driver falls back to a full
build and the equality holds trivially. -/
theorem claim_C3_incremental_matches_full (fs : SpecFS) (d : String) (fuel : Nat)
    (hel : eligibleName d = true)
    (hmem : d ∈ fs.map Prod.fst)
    (hslash : ∀ c ∈ d.data, c ≠ '/') :
    outcomeOf (generateSpecs fs (some d) fuel) d = outcomeOf (generateSpecs fs none fuel) d ∧
    artifactFor (generateSpecs fs (some d) fuel) d = artifactFor (generateSpecs fs none fuel) d := by
  have hbase : pathBasename d = d := pathBasename_no_slash hslash
  have habs : pathIsAbsolute d = false := pathIsAbsolute_no_slash hslash
  have hstart : strStartsWith d "_" = false := by
    have h2 := hel
    unfold eligibleName at h2
    simp only [Bool.and_eq_true, Bool.not_eq_true'] at h2
    exact h2.2
  obtain ⟨c, hc⟩ := lookup_eq_some_of_mem_fst fs d hmem
  have hd2 : d ∈ eligibleFiles fs := List.mem_filter.mpr ⟨hmem, hel⟩
  have hne : eligibleFiles fs ≠ [] := List.ne_nil_of_mem hd2
  have hfullg : generateSpecs fs none fuel =
      .ran false ((eligibleFiles fs).map (fun n => (n, processFile fs fuel n))) := by
    simp [generateSpecs, fullRun, hne]
  have hfull : outcomeOf (generateSpecs fs none fuel) d = some (processFile fs fuel d) := by
    rw [hfullg]
    exact lookup_map_self _ _ d hd2
  have hproc : processFile fs fuel d = (dereferenceSpec fs fuel d c).toOption := by
    unfold processFile
    rw [hc]
    rfl
  suffices hout :
      outcomeOf (generateSpecs fs (some d) fuel) d = outcomeOf (generateSpecs fs none fuel) d by
    refine ⟨hout, ?_⟩
    unfold artifactFor
    rw [hout]
  by_cases hcomp : strContainsSub d "_components" = true
  · have hig : generateSpecs fs (some d) fuel = generateSpecs fs none fuel := by
      simp [generateSpecs, hbase, hcomp]
    rw [hig]
  · have hcompf : strContainsSub d "_components" = false := by
      simpa using hcomp
    have hfap : fileAtPath fs (joinSpecs d) = some c := by
      rw [fileAtPath_joinSpecs]; exact hc
    have hig : generateSpecs fs (some d) fuel =
        .ran true [(d, (dereferenceSpec fs fuel d c).toOption)] := by
      simp [generateSpecs, hbase, hstart, hcompf, habs, hfap]
    rw [hig, hfull, hproc]
    simp [outcomeOf, List.lookup]

theorem claim_C3_incremental_matches_full_witness :
    (eligibleName "api.yaml" = true ∧
     "api.yaml" ∈ ([("api.yaml", Node.obj [("methods", Node.arr [])])] : SpecFS).map Prod.fst ∧
     (∀ c ∈ ("api.yaml" : String).data, c ≠ '/')) ∧
    (outcomeOf (generateSpecs [("api.yaml", Node.obj [("methods", Node.arr [])])]
        (some "api.yaml") 6) "api.yaml" =
      outcomeOf (generateSpecs [("api.yaml", Node.obj [("methods", Node.arr [])])] none 6)
        "api.yaml" ∧
     artifactFor (generateSpecs [("api.yaml", Node.obj [("methods", Node.arr [])])]
        (some "api.yaml") 6) "api.yaml" =
      artifactFor (generateSpecs [("api.yaml", Node.obj [("methods", Node.arr [])])] none 6)
        "api.yaml") :=
  ⟨⟨by decide, by decide, by decide⟩,
   claim_C3_incremental_matches_full _ _ 6 (by decide) (by decide) (by decide)⟩

/-! ### Claim C1 -/

/-- The conflicted document used against claim C1: its `allOf` components
declare `type: string` and `type: object`, which no merge rule reconciles. -/
def c1doc : Node :=
  .obj [("allOf", .arr [.obj [("type", .str "string")], .obj [("type", .str "object")]])]

/-- C1 counterexample: a document whose composition cannot be merged is
nonetheless generated successfully — the run records a success outcome for
it and writes its artifact, with the unmerged `allOf` still in the output —
contradicting the claim that the document's generation fails and no artifact
is produced. -/
theorem claim_C1_counterexample :
    outcomeOf (generateSpecs [("conflict.yaml", c1doc)] none 6) "conflict.yaml" =
      some (some (c1doc, 0)) ∧
    artifactFor (generateSpecs [("conflict.yaml", c1doc)] none 6) "conflict.yaml" =
      some (some (writeSpec c1doc)) ∧
    noTruthyAllOf c1doc = false ∧
    mergeAllOfList 6 [("allOf",
        .arr [.obj [("type", .str "string")], .obj [("type", .str "object")]])]
      [.obj [("type", .str "string")], .obj [("type", .str "object")]] = .error .conflict := by
  decide

/-- C1 (amended): when a node's `allOf` list cannot be merged by the per-key
rules, the merge failure is caught and reported as a warning, and the node is
returned with its composition left in place, unchanged; the enclosing
document's generation continues rather than failing (the counterexample run
shows such a document reported successful with its artifact written). -/
theorem claim_C1_merge_failure_warns_and_continues (fuel : Nat)
    (es : List (String × Node)) (comps : List Node)
    (hget : getEntry es "allOf" = some (.arr comps))
    (hfail : mergeAllOfList fuel es comps = .error .conflict) :
    mergeAllOfSchemas (fuel + 1) (.obj es) = (.obj es, true) := by
  simp [mergeAllOfSchemas, hget, Node.truthy, hfail]

theorem claim_C1_merge_failure_warns_and_continues_witness :
    (getEntry [("allOf",
         Node.arr [.obj [("type", .str "string")], .obj [("type", .str "object")]])] "allOf" =
       some (.arr [.obj [("type", .str "string")], .obj [("type", .str "object")]]) ∧
     mergeAllOfList 5 [("allOf",
         Node.arr [.obj [("type", .str "string")], .obj [("type", .str "object")]])]
       [.obj [("type", .str "string")], .obj [("type", .str "object")]] = .error .conflict) ∧
    mergeAllOfSchemas 6 (.obj [("allOf",
        Node.arr [.obj [("type", .str "string")], .obj [("type", .str "object")]])]) =
      (.obj [("allOf",
        Node.arr [.obj [("type", .str "string")], .obj [("type", .str "object")]])], true) :=
  ⟨⟨by decide, by decide⟩,
   claim_C1_merge_failure_warns_and_continues 5
     [("allOf", Node.arr [.obj [("type", .str "string")], .obj [("type", .str "object")]])]
     [.obj [("type", .str "string")], .obj [("type", .str "object")]]
     (by decide) (by decide)⟩

/-! ### Claim C5 -/

/-- C5 counterexample: a document whose canonical form already carries the
generated-file marker key does not fail with a canonicalization error — it is
generated successfully, and its own value silently replaces the warning
string in the artifact, shadowing the marker. -/
theorem claim_C5_counterexample :
    artifactFor
        (generateSpecs
          [("sneak.yaml", Node.obj [(GEN_WARNING_KEY, Node.str "custom"), ("a", Node.num 1)])]
          none 5) "sneak.yaml" =
      some (some (Node.obj [(GEN_WARNING_KEY, Node.str "custom"), ("a", Node.num 1)])) ∧
    getKey (Node.obj [(GEN_WARNING_KEY, Node.str "custom"), ("a", Node.num 1)])
        GEN_WARNING_KEY ≠ some (.str GEN_WARNING_VAL) := by
  decide

/-- Spreading entries whose keys are fresh for the accumulator appends them
in order. -/
theorem jsSpread_disjoint :
    ∀ (es acc : List (String × Node)),
      (∀ e ∈ es, ∀ a ∈ acc, e.1 ≠ a.1) → (es.map Prod.fst).Nodup →
      jsSpread acc es = acc ++ es := by
  intro es
  induction es with
  | nil => intro acc _ _; simp [jsSpread]
  | cons e rest ih =>
    intro acc hdis hnd
    have hany : (acc.any (fun a => a.1 == e.1)) = false := by
      rw [List.any_eq_false]
      intro a ha
      simpa using (hdis e (List.mem_cons_self e rest) a ha).symm
    have hset : jsObjSet acc e.1 e.2 = acc ++ [e] := by
      unfold jsObjSet
      rw [hany]
      simp
    have hnd1 : (rest.map Prod.fst).Nodup := by
      rw [List.map_cons] at hnd
      exact hnd.of_cons
    have hkey : e.1 ∉ rest.map Prod.fst := by
      rw [List.map_cons] at hnd
      exact (List.nodup_cons.mp hnd).1
    have hdis1 : ∀ e' ∈ rest, ∀ a ∈ acc ++ [e], e'.1 ≠ a.1 := by
      intro e' he' a ha
      rcases List.mem_append.mp ha with h1 | h1
      · exact hdis e' (List.mem_cons_of_mem e he') a h1
      · have : a = e := by simpa using h1
        subst this
        intro hc
        exact hkey (hc ▸ List.mem_map_of_mem Prod.fst he')
    calc jsSpread acc (e :: rest)
        = jsSpread (jsObjSet acc e.1 e.2) rest := rfl
      _ = jsSpread (acc ++ [e]) rest := by rw [hset]
      _ = (acc ++ [e]) ++ rest := ih (acc ++ [e]) hdis1 hnd1
      _ = acc ++ e :: rest := by simp

/-- C5 (amended): the writer performs no collision check. The marker key is
always the first key of the artifact; when the document does not already
carry the marker key, the fixed warning string is prepended ahead of the
document's entries unchanged; when the document does carry it, generation
still succeeds and the document's own value silently replaces the warning
string (keeping first position), shadowing the generated-file marker. -/
theorem claim_C5_marker_shadowed_without_error
    (es : List (String × Node)) (hnd : (es.map Prod.fst).Nodup) :
    (GEN_WARNING_KEY ∉ es.map Prod.fst →
       writeSpec (.obj es) = .obj ((GEN_WARNING_KEY, .str GEN_WARNING_VAL) :: es)) ∧
    (∀ v, (GEN_WARNING_KEY, v) ∈ es →
       writeSpec (.obj es) =
         .obj ((GEN_WARNING_KEY, v) :: es.filter (fun e => e.1 ≠ GEN_WARNING_KEY))) := by
  constructor
  · intro hnk
    unfold writeSpec spreadEntries
    rw [jsSpread_disjoint es [(GEN_WARNING_KEY, .str GEN_WARNING_VAL)]
      (by
        intro e he a ha
        have haeq : a = (GEN_WARNING_KEY, Node.str GEN_WARNING_VAL) := by simpa using ha
        subst haeq
        intro hc
        have hc' : e.1 = GEN_WARNING_KEY := hc
        exact hnk (hc' ▸ List.mem_map_of_mem Prod.fst he)) hnd]
    rfl
  · intro v hv
    obtain ⟨l1, l2, rfl⟩ := List.append_of_mem hv
    have hmf : ((l1 ++ (GEN_WARNING_KEY, v) :: l2).map Prod.fst) =
        l1.map Prod.fst ++ GEN_WARNING_KEY :: l2.map Prod.fst := by
      simp
    rw [hmf] at hnd
    have hmid := (List.nodup_middle).mp hnd
    have hknot : GEN_WARNING_KEY ∉ l1.map Prod.fst ++ l2.map Prod.fst :=
      (List.nodup_cons.mp hmid).1
    have hk1 : GEN_WARNING_KEY ∉ l1.map Prod.fst :=
      fun hc => hknot (List.mem_append.mpr (Or.inl hc))
    have hk2 : GEN_WARNING_KEY ∉ l2.map Prod.fst :=
      fun hc => hknot (List.mem_append.mpr (Or.inr hc))
    have hnd12 := (List.nodup_cons.mp hmid).2
    have hnd1 : (l1.map Prod.fst).Nodup := hnd12.of_append_left
    have hnd2 : (l2.map Prod.fst).Nodup := hnd12.of_append_right
    have hdisj : (l1.map Prod.fst).Disjoint (l2.map Prod.fst) :=
      (List.nodup_append.mp hnd12).2.2
    have h1 : jsSpread [(GEN_WARNING_KEY, .str GEN_WARNING_VAL)] l1 =
        (GEN_WARNING_KEY, Node.str GEN_WARNING_VAL) :: l1 := by
      rw [jsSpread_disjoint l1 [(GEN_WARNING_KEY, .str GEN_WARNING_VAL)]
        (by
          intro e he a ha
          have haeq : a = (GEN_WARNING_KEY, Node.str GEN_WARNING_VAL) := by simpa using ha
          subst haeq
          intro hc
          have hc' : e.1 = GEN_WARNING_KEY := hc
          exact hk1 (hc' ▸ List.mem_map_of_mem Prod.fst he)) hnd1]
      rfl
    have h2 : jsObjSet ((GEN_WARNING_KEY, Node.str GEN_WARNING_VAL) :: l1) GEN_WARNING_KEY v =
        (GEN_WARNING_KEY, v) :: l1 := by
      unfold jsObjSet
      have hany : ((GEN_WARNING_KEY, Node.str GEN_WARNING_VAL) :: l1).any
          (fun a => a.1 == GEN_WARNING_KEY) = true := by
        simp
      rw [hany]
      simp only [if_true, List.map_cons]
      have hhead : ((GEN_WARNING_KEY, Node.str GEN_WARNING_VAL).1 == GEN_WARNING_KEY) = true := by
        simp
      simp only [hhead, if_true]
      congr 1
      have hmapid : l1.map (fun e => if (e.1 == GEN_WARNING_KEY) = true then (e.1, v) else e) =
          l1.map id := by
        apply List.map_congr_left
        intro a ha
        have hfa : (a.1 == GEN_WARNING_KEY) = false := by
          simp only [beq_eq_false_iff_ne]
          intro hc
          exact hk1 (hc ▸ List.mem_map_of_mem Prod.fst ha)
        simp [hfa]
      rw [hmapid, List.map_id]
    have h3 : jsSpread ((GEN_WARNING_KEY, v) :: l1) l2 =
        ((GEN_WARNING_KEY, v) :: l1) ++ l2 := by
      apply jsSpread_disjoint l2 ((GEN_WARNING_KEY, v) :: l1)
        (by
          intro e he a ha
          rcases List.mem_cons.mp ha with h | h
          · subst h
            intro hc
            have hc' : e.1 = GEN_WARNING_KEY := hc
            exact hk2 (hc' ▸ List.mem_map_of_mem Prod.fst he)
          · intro hc
            exact hdisj (hc ▸ List.mem_map_of_mem Prod.fst h)
              (List.mem_map_of_mem Prod.fst he)) hnd2
    have hsp : jsSpread [(GEN_WARNING_KEY, Node.str GEN_WARNING_VAL)]
        (l1 ++ (GEN_WARNING_KEY, v) :: l2) = (GEN_WARNING_KEY, v) :: (l1 ++ l2) := by
      unfold jsSpread
      rw [List.foldl_append]
      have e1 : List.foldl (fun acc e => jsObjSet acc e.1 e.2)
          [(GEN_WARNING_KEY, Node.str GEN_WARNING_VAL)] l1 =
          (GEN_WARNING_KEY, Node.str GEN_WARNING_VAL) :: l1 := h1
      rw [e1]
      show List.foldl (fun acc e => jsObjSet acc e.1 e.2)
        (jsObjSet ((GEN_WARNING_KEY, Node.str GEN_WARNING_VAL) :: l1) GEN_WARNING_KEY v) l2 = _
      rw [h2]
      have e3 : List.foldl (fun acc e => jsObjSet acc e.1 e.2) ((GEN_WARNING_KEY, v) :: l1) l2 =
          ((GEN_WARNING_KEY, v) :: l1) ++ l2 := h3
      rw [e3]
      simp
    have hfil : (l1 ++ (GEN_WARNING_KEY, v) :: l2).filter (fun e => e.1 ≠ GEN_WARNING_KEY) =
        l1 ++ l2 := by
      rw [List.filter_append]
      have f1 : l1.filter (fun e => decide (e.1 ≠ GEN_WARNING_KEY)) = l1 := by
        apply List.filter_eq_self.mpr
        intro a ha
        simp only [decide_eq_true_eq]
        intro hc
        exact hk1 (hc ▸ List.mem_map_of_mem Prod.fst ha)
      have f2 : ((GEN_WARNING_KEY, v) :: l2).filter (fun e => decide (e.1 ≠ GEN_WARNING_KEY)) =
          l2 := by
        have hp : (decide ((GEN_WARNING_KEY, v).1 ≠ GEN_WARNING_KEY)) = false := by simp
        rw [List.filter_cons, hp]
        simp only [Bool.false_eq_true, if_false]
        apply List.filter_eq_self.mpr
        intro a ha
        simp only [decide_eq_true_eq]
        intro hc
        exact hk2 (hc ▸ List.mem_map_of_mem Prod.fst ha)
      simp only [f1, f2]
    unfold writeSpec spreadEntries
    rw [hsp, hfil]

theorem claim_C5_marker_shadowed_without_error_witness :
    (([("title", Node.str "t")] : List (String × Node)).map Prod.fst).Nodup ∧
    ((GEN_WARNING_KEY ∉ ([("title", Node.str "t")] : List (String × Node)).map Prod.fst →
        writeSpec (.obj [("title", Node.str "t")]) =
          .obj ((GEN_WARNING_KEY, .str GEN_WARNING_VAL) :: [("title", Node.str "t")])) ∧
     (∀ v, (GEN_WARNING_KEY, v) ∈ ([("title", Node.str "t")] : List (String × Node)) →
        writeSpec (.obj [("title", Node.str "t")]) =
          .obj ((GEN_WARNING_KEY, v) ::
            ([("title", Node.str "t")] : List (String × Node)).filter
              (fun e => e.1 ≠ GEN_WARNING_KEY)))) :=
  ⟨by decide, claim_C5_marker_shadowed_without_error [("title", Node.str "t")] (by decide)⟩

/-! ### Claim C4 -/

theorem noTruthyAllOfList_eq_all : ∀ l : List Node, noTruthyAllOfList l = l.all noTruthyAllOf := by
  intro l
  induction l with
  | nil => rfl
  | cons x xs ih => simp [noTruthyAllOfList, ih]

theorem noTruthyAllOfEntries_eq_all :
    ∀ es : List (String × Node),
      noTruthyAllOfEntries es = es.all (fun e => noTruthyAllOf e.2) := by
  intro es
  induction es with
  | nil => rfl
  | cons e rest ih =>
    obtain ⟨k, v⟩ := e
    simp [noTruthyAllOfEntries, ih]

theorem getEntry_map_val (g : (String × Node) → Node)
    (es : List (String × Node)) (k : String) :
    getEntry (es.map (fun e => (e.1, g e))) k = (es.find? (fun e => e.1 == k)).map g := by
  unfold getEntry
  rw [List.find?_map]
  have hp : ((fun e : String × Node => e.1 == k) ∘ fun e : String × Node => (e.1, g e)) =
      (fun e : String × Node => e.1 == k) := by
    funext e; rfl
  rw [hp, Option.map_map]
  cases es.find? (fun e : String × Node => e.1 == k) <;> rfl

/-- A falsy value is a scalar, which `mergeAllOfSchemas` returns unchanged
without warning whenever any fuel remains. -/
theorem mas_falsy (fuel : Nat) (v : Node) (hv : v.truthy = false) :
    mergeAllOfSchemas (fuel + 1) v = (v, false) := by
  cases v with
  | null => rfl
  | bool b =>
    have : b = false := by simpa [Node.truthy] using hv
    subst this
    rfl
  | num n => rfl
  | str s => rfl
  | arr xs => simp [Node.truthy] at hv
  | obj es => simp [Node.truthy] at hv

/-- C4 (amended): if composition completes with no warning raised — no
component merge failed and the fuel never ran out — then no node in the
composed tree carries a composition (`allOf`) key with a truthy value. When
a merge does fail, the composition is left in place and only the warning
flag records it, while the document is still reported successfully generated
(the counterexample exhibits such a run). -/
theorem claim_C4_composed_tree_no_allof (fuel : Nat) :
    ∀ n : Node, (mergeAllOfSchemas fuel n).2 = false →
      noTruthyAllOf (mergeAllOfSchemas fuel n).1 = true := by
  induction fuel with
  | zero =>
    intro n h
    simp [mergeAllOfSchemas] at h
  | succ fuel ih =>
    intro n h
    cases n with
    | null => simp [mergeAllOfSchemas, noTruthyAllOf]
    | bool b => simp [mergeAllOfSchemas, noTruthyAllOf]
    | num m => simp [mergeAllOfSchemas, noTruthyAllOf]
    | str s => simp [mergeAllOfSchemas, noTruthyAllOf]
    | arr xs =>
      have hres : mergeAllOfSchemas (fuel + 1) (.arr xs) =
          (.arr ((xs.map (mergeAllOfSchemas fuel)).map Prod.fst),
           (xs.map (mergeAllOfSchemas fuel)).any Prod.snd) := by
        simp [mergeAllOfSchemas]
      rw [hres] at h ⊢
      simp only at h ⊢
      rw [List.any_eq_false] at h
      simp only [noTruthyAllOf, noTruthyAllOfList_eq_all, List.all_eq_true, List.map_map,
        List.mem_map]
      rintro y ⟨x, hx, rfl⟩
      have hw : (mergeAllOfSchemas fuel x).2 = false :=
        Bool.eq_false_iff.mpr (h _ (List.mem_map_of_mem _ hx))
      exact ih x hw
    | obj es =>
      cases hA : getEntry es "allOf" with
      | some v =>
        cases htr : v.truthy with
        | true =>
          cases v with
          | arr comps =>
            cases hm : mergeAllOfList fuel es comps with
            | ok merged =>
              have hres : mergeAllOfSchemas (fuel + 1) (.obj es) =
                  mergeAllOfSchemas fuel merged := by
                simp [mergeAllOfSchemas, hA, Node.truthy, hm]
              rw [hres] at h ⊢
              exact ih merged h
            | error e =>
              have hres : mergeAllOfSchemas (fuel + 1) (.obj es) = (.obj es, true) := by
                simp [mergeAllOfSchemas, hA, Node.truthy, hm]
              rw [hres] at h
              simp at h
          | null => simp [Node.truthy] at htr
          | bool b =>
            have hres : mergeAllOfSchemas (fuel + 1) (.obj es) = (.obj es, true) := by
              have hb : b = true := by simpa [Node.truthy] using htr
              subst hb
              simp [mergeAllOfSchemas, hA, Node.truthy]
            rw [hres] at h
            simp at h
          | num m =>
            have hres : mergeAllOfSchemas (fuel + 1) (.obj es) = (.obj es, true) := by
              have hm0 : m ≠ 0 := by simpa [Node.truthy] using htr
              simp [mergeAllOfSchemas, hA, Node.truthy, hm0]
            rw [hres] at h
            simp at h
          | str s =>
            have hres : mergeAllOfSchemas (fuel + 1) (.obj es) = (.obj es, true) := by
              have hs0 : s ≠ "" := by simpa [Node.truthy] using htr
              simp [mergeAllOfSchemas, hA, Node.truthy, hs0]
            rw [hres] at h
            simp at h
          | obj es2 =>
            have hres : mergeAllOfSchemas (fuel + 1) (.obj es) = (.obj es, true) := by
              simp [mergeAllOfSchemas, hA, Node.truthy]
            rw [hres] at h
            simp at h
        | false =>
          have hres : mergeAllOfSchemas (fuel + 1) (.obj es) =
              (.obj ((es.map fun e => (e.1, mergeAllOfSchemas fuel e.2)).map
                  (fun p => (p.1, p.2.1))),
               (es.map fun e => (e.1, mergeAllOfSchemas fuel e.2)).any (fun p => p.2.2)) := by
            simp [mergeAllOfSchemas, hA, htr]
          rw [hres] at h ⊢
          simp only at h ⊢
          rw [List.any_eq_false] at h
          have hw : ∀ e ∈ es, (mergeAllOfSchemas fuel e.2).2 = false := by
            intro e he
            exact Bool.eq_false_iff.mpr (h _ (List.mem_map_of_mem _ he))
          have hmap :
              (es.map fun e => (e.1, mergeAllOfSchemas fuel e.2)).map (fun p => (p.1, p.2.1)) =
                es.map (fun e => (e.1, (mergeAllOfSchemas fuel e.2).1)) := by
            simp [List.map_map]
          rw [hmap]
          simp only [noTruthyAllOf]
          rw [getEntry_map_val (fun e => (mergeAllOfSchemas fuel e.2).1) es "allOf"]
          have hfind : ∃ e0, es.find? (fun e => e.1 == "allOf") = some e0 ∧ e0.2 = v := by
            unfold getEntry at hA
            cases hf : es.find? (fun e : String × Node => e.1 == "allOf") with
            | none => rw [hf] at hA; simp at hA
            | some e0 =>
              rw [hf] at hA
              simp at hA
              exact ⟨e0, rfl, hA⟩
          obtain ⟨e0, hf, hev⟩ := hfind
          rw [hf]
          have he0 : e0 ∈ es := List.mem_of_find?_eq_some hf
          have hw0 := hw e0 he0
          rw [hev] at hw0
          cases fuel with
          | zero => simp [mergeAllOfSchemas] at hw0
          | succ f =>
            rw [noTruthyAllOfEntries_eq_all]
            simp only [List.all_eq_true, List.mem_map, Bool.and_eq_true]
            constructor
            · show (!(mergeAllOfSchemas (f + 1) e0.2).1.truthy) = true
              rw [hev, mas_falsy f v htr]
              simp [htr]
            · rintro y ⟨e, he, rfl⟩
              exact ih e.2 (hw e he)
      | none =>
        have hres : mergeAllOfSchemas (fuel + 1) (.obj es) =
            (.obj ((es.map fun e => (e.1, mergeAllOfSchemas fuel e.2)).map
                (fun p => (p.1, p.2.1))),
             (es.map fun e => (e.1, mergeAllOfSchemas fuel e.2)).any (fun p => p.2.2)) := by
          simp [mergeAllOfSchemas, hA]
        rw [hres] at h ⊢
        simp only at h ⊢
        rw [List.any_eq_false] at h
        have hw : ∀ e ∈ es, (mergeAllOfSchemas fuel e.2).2 = false := by
          intro e he
          exact Bool.eq_false_iff.mpr (h _ (List.mem_map_of_mem _ he))
        have hmap :
            (es.map fun e => (e.1, mergeAllOfSchemas fuel e.2)).map (fun p => (p.1, p.2.1)) =
              es.map (fun e => (e.1, (mergeAllOfSchemas fuel e.2).1)) := by
          simp [List.map_map]
        rw [hmap]
        simp only [noTruthyAllOf]
        rw [getEntry_map_val (fun e => (mergeAllOfSchemas fuel e.2).1) es "allOf"]
        have hfind : es.find? (fun e => e.1 == "allOf") = none := by
          unfold getEntry at hA
          cases hf : es.find? (fun e : String × Node => e.1 == "allOf") with
          | none => rfl
          | some e0 => rw [hf] at hA; simp at hA
        rw [hfind]
        rw [noTruthyAllOfEntries_eq_all]
        simp only [List.all_eq_true, List.mem_map, Option.map_none', Bool.true_and]
        rintro y ⟨e, he, rfl⟩
        exact ih e.2 (hw e he)

/-- The conflicted document used against claim C4. -/
def c4doc : Node :=
  .obj [("allOf", .arr [.obj [("type", .str "string")], .obj [("type", .str "object")]])]

/-- C4 counterexample: a document whose composition merge fails is reported
successfully generated, yet its final output tree still carries the `allOf`
composition key — the claimed invariant does not hold for every successfully
generated document. -/
theorem claim_C4_counterexample :
    outcomeOf (generateSpecs [("c4.yaml", c4doc)] none 6) "c4.yaml" = some (some (c4doc, 0)) ∧
    noTruthyAllOf c4doc = false := by
  decide

/-- A mergeable composition for the C4 witness: the two `type` values are
both non-structural, so the merge succeeds with the later one winning. -/
def c4ok : Node :=
  .obj [("allOf", .arr [.obj [("type", .str "integer")], .obj [("type", .str "string")]])]

theorem claim_C4_composed_tree_no_allof_witness :
    (mergeAllOfSchemas 3 c4ok).2 = false ∧
    noTruthyAllOf (mergeAllOfSchemas 3 c4ok).1 = true :=
  ⟨by decide, claim_C4_composed_tree_no_allof 3 c4ok (by decide)⟩

/-! ### Claim C6 -/

theorem cmpNats_refl : ∀ a : List Nat, cmpNats a a = .eq := by
  intro a
  induction a with
  | nil => rfl
  | cons x xs ih => simp [cmpNats, ih]

theorem cmpNats_eq_iff : ∀ a b : List Nat, cmpNats a b = .eq ↔ a = b := by
  intro a
  induction a with
  | nil =>
    intro b
    cases b <;> simp [cmpNats]
  | cons x xs ih =>
    intro b
    cases b with
    | nil => simp [cmpNats]
    | cons y ys =>
      by_cases hxy : x < y
      · simp [cmpNats, hxy]
        intro hc
        omega
      · by_cases hyx : y < x
        · simp [cmpNats, hxy, hyx]
          intro hc
          omega
        · have hx : x = y := by omega
          subst hx
          simp [cmpNats, hxy, hyx, ih ys]

theorem cmpNats_lt_trans :
    ∀ a b c : List Nat, cmpNats a b = .lt → cmpNats b c = .lt → cmpNats a c = .lt := by
  intro a
  induction a with
  | nil =>
    intro b c hab hbc
    cases c with
    | nil =>
      cases b with
      | nil => exact hab
      | cons y ys => simp [cmpNats] at hbc
    | cons z zs => simp [cmpNats]
  | cons x xs ih =>
    intro b c hab hbc
    cases b with
    | nil => simp [cmpNats] at hab
    | cons y ys =>
      cases c with
      | nil => simp [cmpNats] at hbc
      | cons z zs =>
        simp only [cmpNats] at hab hbc ⊢
        by_cases hxy : x < y
        · by_cases hyz : y < z
          · have hxz : x < z := by omega
            simp [hxz]
          · by_cases hzy : z < y
            · simp [hxy, hyz, hzy] at hbc
            · have hyzeq : y = z := by omega
              subst hyzeq
              simp [hxy]
        · by_cases hyx : y < x
          · simp [hxy, hyx] at hab
          · have hxyeq : x = y := by omega
            subst hxyeq
            by_cases hyz : x < z
            · simp [hyz]
            · by_cases hzy : z < x
              · simp [hyz, hzy] at hbc
              · have hxzeq : x = z := by omega
                subst hxzeq
                simp [hyz, hzy] at hab hbc ⊢
                exact ih ys zs hab hbc

theorem cmpNats_swap : ∀ a b : List Nat, cmpNats a b = (cmpNats b a).swap := by
  intro a
  induction a with
  | nil =>
    intro b
    cases b <;> simp [cmpNats, Ordering.swap]
  | cons x xs ih =>
    intro b
    cases b with
    | nil => simp [cmpNats, Ordering.swap]
    | cons y ys =>
      by_cases hxy : x < y
      · have hyx : ¬ y < x := by omega
        simp [cmpNats, hxy, hyx, Ordering.swap]
      · by_cases hyx : y < x
        · simp [cmpNats, hxy, hyx, Ordering.swap]
        · have hx : x = y := by omega
          subst hx
          simp [cmpNats, hxy, ih ys]

/-- Non-`gt` outcomes of a `then`-composed comparison. -/
theorem then_ne_gt (o1 o2 : Ordering) :
    (o1.then o2) ≠ .gt ↔ o1 = .lt ∨ (o1 = .eq ∧ o2 ≠ .gt) := by
  cases o1 <;> simp [Ordering.then]

theorem localeCmp_refl (s : String) : localeCmp s s = .eq := by
  simp [localeCmp, cmpNats_refl, Ordering.then]

theorem localeCmp_swap (a b : String) : localeCmp a b = (localeCmp b a).swap := by
  unfold localeCmp
  rw [cmpNats_swap (a.data.map (fun c => c.toLower.toNat)),
    cmpNats_swap (a.data.map (fun c => if c.isLower then 0 else 1))]
  cases cmpNats (b.data.map (fun c => c.toLower.toNat)) (a.data.map (fun c => c.toLower.toNat)) <;>
    simp [Ordering.then, Ordering.swap]

/-- The comparator order is total. -/
theorem nameLe_total : ∀ a b : Node, nameLe a b ∨ nameLe b a := by
  intro a b
  by_cases h : localeCmp (nameD a) (nameD b) = .gt
  · right
    unfold nameLe
    rw [localeCmp_swap (nameD b) (nameD a), h]
    simp [Ordering.swap]
  · exact Or.inl h

/-- A comparison outcome other than `gt` is `lt` or `eq`. -/
theorem ne_gt_iff (o : Ordering) : o ≠ .gt ↔ o = .lt ∨ o = .eq := by
  cases o <;> simp

theorem cmpNats_ne_gt_trans {a b c : List Nat}
    (hab : cmpNats a b ≠ .gt) (hbc : cmpNats b c ≠ .gt) : cmpNats a c ≠ .gt := by
  rw [ne_gt_iff] at hab hbc ⊢
  rcases hab with h1 | h1 <;> rcases hbc with h2 | h2
  · exact Or.inl (cmpNats_lt_trans _ _ _ h1 h2)
  · rw [cmpNats_eq_iff] at h2
    rw [← h2]
    exact Or.inl h1
  · rw [cmpNats_eq_iff] at h1
    rw [h1]
    exact Or.inl h2
  · rw [cmpNats_eq_iff] at h1 h2
    right
    rw [cmpNats_eq_iff, h1, h2]

/-- The comparator order is transitive. -/
theorem nameLe_trans : ∀ a b c : Node, nameLe a b → nameLe b c → nameLe a c := by
  intro a b c hab hbc
  unfold nameLe localeCmp at hab hbc ⊢
  rw [then_ne_gt] at hab hbc ⊢
  rcases hab with h1 | ⟨h1, h1t⟩ <;> rcases hbc with h2 | ⟨h2, h2t⟩
  · exact Or.inl (cmpNats_lt_trans _ _ _ h1 h2)
  · rw [cmpNats_eq_iff] at h2
    rw [← h2]
    exact Or.inl h1
  · rw [cmpNats_eq_iff] at h1
    rw [h1]
    exact Or.inl h2
  · rw [cmpNats_eq_iff] at h1 h2
    right
    constructor
    · rw [cmpNats_eq_iff, h1, h2]
    · exact cmpNats_ne_gt_trans h1t h2t

instance : IsTotal Node nameLe := ⟨nameLe_total⟩

instance : IsTrans Node nameLe := ⟨fun a b c => nameLe_trans a b c⟩

/-- Entries with equal names are comparator-equivalent. -/
theorem nameLe_of_nameD_eq {x y : Node} (h : nameD x = nameD y) : nameLe x y := by
  unfold nameLe
  rw [h, localeCmp_refl]
  simp

/-- Inserting an entry into a list commutes with filtering by one name:
the inserted entry lands ahead of every equally-named entry, never between
or behind them. -/
theorem orderedInsert_filter_name (s : String) (x : Node) :
    ∀ l : List Node,
      (List.orderedInsert nameLe x l).filter (fun m => nameD m == s) =
        if (nameD x == s) then x :: l.filter (fun m => nameD m == s)
        else l.filter (fun m => nameD m == s) := by
  intro l
  induction l with
  | nil =>
    simp only [List.orderedInsert, List.filter_cons, List.filter_nil]
  | cons y ys ih =>
    by_cases hxy : nameLe x y
    · simp only [List.orderedInsert, if_pos hxy]
      rw [List.filter_cons]
    · simp only [List.orderedInsert, if_neg hxy]
      rw [List.filter_cons]
      cases hx : (nameD x == s) with
      | true =>
        have hy : (nameD y == s) = false := by
          cases hy : (nameD y == s) with
          | true =>
            exfalso
            apply hxy
            apply nameLe_of_nameD_eq
            rw [beq_iff_eq] at hx hy
            rw [hx, hy]
          | false => rfl
        rw [hy]
        simp only [Bool.false_eq_true, if_false]
        rw [ih, hx]
        simp only [if_true]
        rw [List.filter_cons, hy]
        simp
      | false =>
        rw [ih, hx]
        simp only [Bool.false_eq_true, if_false]
        rw [List.filter_cons]

/-- The method sort is stable: filtering the sorted list by any one name
gives the same sequence (hence the same relative order) as filtering the
input. -/
theorem sortMethodsList_stable (s : String) :
    ∀ ms : List Node,
      (sortMethodsList ms).filter (fun m => nameD m == s) =
        ms.filter (fun m => nameD m == s) := by
  intro ms
  induction ms with
  | nil => rfl
  | cons b l ih =>
    unfold sortMethodsList at ih ⊢
    simp only [List.insertionSort]
    rw [orderedInsert_filter_name s b (List.insertionSort nameLe l)]
    cases hb : (nameD b == s) with
    | true =>
      simp only [if_true]
      rw [ih, List.filter_cons, hb]
      simp
    | false =>
      simp only [Bool.false_eq_true, if_false]
      rw [ih, List.filter_cons, hb]
      simp

/-- The documents used against claim C6: methods named `"a"` and `"B"`. -/
def c6doc : Node :=
  .obj [("methods", .arr [.obj [("name", .str "a")], .obj [("name", .str "B")]])]

/-- Strict ordinary lexicographic (code-unit) comparison of strings. -/
def lexLtChars : List Char → List Char → Bool
  | [], [] => false
  | [], _ :: _ => true
  | _ :: _, [] => false
  | c :: cs, d :: ds =>
    if c.toNat < d.toNat then true
    else if d.toNat < c.toNat then false
    else lexLtChars cs ds

/-- Ordinary lexicographic string order, the ordering the claim names. -/
def lexLeStr (a b : String) : Bool := a == b || lexLtChars a.data b.data

/-- C6 counterexample: the canonicalization sort keeps the `"a"`-named entry
ahead of the `"B"`-named one — the comparator is locale-aware — although
ordinary lexicographic string ordering puts `"B"` strictly before `"a"`
(`"a" ≤ "B"` fails on code units), so the sorted methods are not in ordinary
lexicographic order as the claim states. -/
theorem claim_C6_counterexample :
    sortMethodsNode c6doc = .ok c6doc ∧
    nameD (Node.obj [("name", .str "a")]) = "a" ∧
    nameD (Node.obj [("name", .str "B")]) = "B" ∧
    lexLeStr "a" "B" = false ∧ lexLeStr "B" "a" = true := by
  refine ⟨by decide, rfl, rfl, by decide, by decide⟩

/-- C6 (amended): for every resolved document with a top-level methods
sequence in which every entry carries a string name, canonicalization sorts
that sequence in place by each entry's name under the default-locale
collation order (`localeCompare`, which differs from ordinary lexicographic
code-unit ordering, e.g. lowercase before uppercase on a letter tie), and
the sort is stable: it permutes the entries, orders them by the comparator,
and entries with identical names keep their original relative order. -/
theorem claim_C6_sort_locale_stable (es : List (String × Node)) (xs : List Node)
    (hm : getEntry es "methods" = some (.arr xs))
    (hnames : xs.all (fun m => (methodName m).isSome) = true) :
    sortMethodsNode (.obj es) = .ok (.obj (setEntry es "methods" (.arr (sortMethodsList xs)))) ∧
    (sortMethodsList xs).Perm xs ∧
    List.Sorted nameLe (sortMethodsList xs) ∧
    (∀ s, (sortMethodsList xs).filter (fun m => nameD m == s) =
       xs.filter (fun m => nameD m == s)) := by
  refine ⟨?_, ?_, ?_, ?_⟩
  · simp [sortMethodsNode, hm, hnames]
  · exact List.perm_insertionSort nameLe xs
  · exact List.sorted_insertionSort nameLe xs
  · intro s
    exact sortMethodsList_stable s xs

/-- The zeta/alpha/alpha document of the spec's sort-stability example, with
distinct ids so the two `"alpha"` entries are distinguishable. -/
def c6mz : Node := .obj [("name", .str "zeta"), ("id", .num 0)]

def c6ma1 : Node := .obj [("name", .str "alpha"), ("id", .num 1)]

def c6ma2 : Node := .obj [("name", .str "alpha"), ("id", .num 2)]

theorem claim_C6_sort_locale_stable_witness :
    (getEntry [("methods", Node.arr [c6mz, c6ma1, c6ma2])] "methods" =
       some (.arr [c6mz, c6ma1, c6ma2]) ∧
     ([c6mz, c6ma1, c6ma2].all (fun m => (methodName m).isSome)) = true) ∧
    (sortMethodsNode (.obj [("methods", Node.arr [c6mz, c6ma1, c6ma2])]) =
       .ok (.obj (setEntry [("methods", Node.arr [c6mz, c6ma1, c6ma2])] "methods"
         (.arr (sortMethodsList [c6mz, c6ma1, c6ma2])))) ∧
     (sortMethodsList [c6mz, c6ma1, c6ma2]).Perm [c6mz, c6ma1, c6ma2] ∧
     List.Sorted nameLe (sortMethodsList [c6mz, c6ma1, c6ma2]) ∧
     (∀ s, (sortMethodsList [c6mz, c6ma1, c6ma2]).filter (fun m => nameD m == s) =
        [c6mz, c6ma1, c6ma2].filter (fun m => nameD m == s))) ∧
    sortMethodsList [c6mz, c6ma1, c6ma2] = [c6ma1, c6ma2, c6mz] :=
  ⟨⟨by decide, by decide⟩,
   claim_C6_sort_locale_stable [("methods", Node.arr [c6mz, c6ma1, c6ma2])]
     [c6mz, c6ma1, c6ma2] (by decide) (by decide),
   by decide⟩

/-! ### Claim C7 -/

theorem isRef_mkRef (e : String) : isRef (mkRef e) = some e := by
  simp [isRef, mkRef]

/-- One step of a reference chain: the subtree at `a` is exactly a reference
node whose location expression parses (in `a`'s document) to `b`. -/
def refStep (fs : SpecFS) (a b : Loc) : Prop :=
  ∃ e, navigate fs a = some (mkRef e) ∧ parseLoc a.doc e = b

/-- A chain of reference nodes from `a` through `mids`, ending in a
reference back to `z`. -/
def chainTo (fs : SpecFS) : Loc → List Loc → Loc → Prop
  | a, [], z => refStep fs a z
  | a, b :: bs, z => refStep fs a b ∧ chainTo fs b bs z

/-- Unfolding: resolving a reference node whose parsed location is already
in progress reports the cycle. -/
theorem resolveNode_ref_circular (fs : SpecFS) (fuel : Nat) (cur : String)
    (stack : List Loc) (e : String) (l : Loc)
    (hp : parseLoc cur e = l) (hmem : l ∈ stack) :
    resolveNode fs (fuel + 1) cur stack (mkRef e) = .error (.circularRef l) := by
  conv_lhs => simp only [resolveNode, isRef_mkRef]
  rw [hp, if_pos hmem]

/-- Unfolding: resolving a fresh reference node pushes its location and
resolves the referenced subtree. -/
theorem resolveNode_ref_step (fs : SpecFS) (fuel : Nat) (cur : String)
    (stack : List Loc) (e : String) (l : Loc) (sub : Node)
    (hp : parseLoc cur e = l) (hmem : l ∉ stack) (hnav : navigate fs l = some sub) :
    resolveNode fs (fuel + 1) cur stack (mkRef e) =
      resolveNode fs fuel l.doc (l :: stack) sub := by
  conv_lhs => simp only [resolveNode, isRef_mkRef]
  rw [hp, if_neg hmem, hnav]

/-- Resolving a reference whose location chain leads back to a location that
is the entry itself or already on the in-progress stack fails with a
circular-reference error, given fuel beyond the chain length. -/
theorem resolve_chain_circular (fs : SpecFS) :
    ∀ (mids : List Loc) (l z : Loc) (cur e : String) (stack : List Loc) (fuel : Nat),
      mids.length + 2 ≤ fuel →
      parseLoc cur e = l →
      chainTo fs l mids z →
      (z = l ∨ z ∈ stack) →
      ∃ c, resolveNode fs fuel cur stack (mkRef e) = .error (.circularRef c) := by
  intro mids
  induction mids with
  | nil =>
    intro l z cur e stack fuel hfuel hparse hchain hz
    obtain ⟨f, rfl⟩ : ∃ f, fuel = f + 1 + 1 := ⟨fuel - 2, by omega⟩
    by_cases hmem : l ∈ stack
    · exact ⟨l, resolveNode_ref_circular fs (f + 1) cur stack e l hparse hmem⟩
    · obtain ⟨e2, hnav, hp2⟩ := hchain
      have hzmem : z ∈ l :: stack := by
        rcases hz with h | h
        · exact h ▸ List.mem_cons_self l stack
        · exact List.mem_cons_of_mem l h
      refine ⟨z, ?_⟩
      rw [resolveNode_ref_step fs (f + 1) cur stack e l (mkRef e2) hparse hmem hnav]
      exact resolveNode_ref_circular fs f l.doc (l :: stack) e2 z hp2 hzmem
  | cons b bs ih =>
    intro l z cur e stack fuel hfuel hparse hchain hz
    obtain ⟨f, rfl⟩ : ∃ f, fuel = f + 1 := ⟨fuel - 1, by omega⟩
    by_cases hmem : l ∈ stack
    · exact ⟨l, resolveNode_ref_circular fs f cur stack e l hparse hmem⟩
    · obtain ⟨⟨e2, hnav, hp2⟩, hrest⟩ := hchain
      have hfuel2 : bs.length + 2 ≤ f := by
        simp only [List.length_cons] at hfuel
        omega
      have hzin : z = b ∨ z ∈ l :: stack := by
        rcases hz with h | h
        · exact Or.inr (h ▸ List.mem_cons_self l stack)
        · exact Or.inr (List.mem_cons_of_mem l h)
      obtain ⟨c, hc⟩ := ih b z l.doc e2 (l :: stack) f hfuel2 hp2 hrest hzin
      refine ⟨c, ?_⟩
      rw [resolveNode_ref_step fs f cur stack e l (mkRef e2) hparse hmem hnav]
      exact hc


theorem except_bind_ok {α β : Type} (a : α) (g : α → Except GenError β) :
    ((Except.ok a : Except GenError α) >>= g) = g a := rfl

theorem except_bind_error {α β : Type} (er : GenError) (g : α → Except GenError β) :
    ((Except.error er : Except GenError α) >>= g) = Except.error er := rfl

/-- Appending one further reference step to the end of a chain. -/
theorem chainTo_snoc (fs : SpecFS) :
    ∀ (ms : List Loc) (a z c : Loc),
      chainTo fs a ms z → refStep fs z c → chainTo fs a (ms ++ [z]) c := by
  intro ms
  induction ms with
  | nil =>
    intro a z c h hz
    exact ⟨h, hz⟩
  | cons b bs ih =>
    intro a z c h hz
    exact ⟨h.1, ih b z c h.2 hz⟩

/-- A reference node whose location lies on a cycle never resolves
successfully, whatever the fuel, the stack or the surrounding position:
every resolution path ends in an error. -/
theorem resolve_cycle_never_ok (fs : SpecFS) :
    ∀ (fuel : Nat) (mids : List Loc) (l : Loc) (cur e : String) (stack : List Loc) (r : Node),
      parseLoc cur e = l → chainTo fs l mids l →
      resolveNode fs fuel cur stack (mkRef e) ≠ .ok r := by
  intro fuel
  induction fuel with
  | zero =>
    intro mids l cur e stack r hp hc
    simp [resolveNode]
  | succ f ih =>
    intro mids l cur e stack r hp hc
    by_cases hmem : l ∈ stack
    · rw [resolveNode_ref_circular fs f cur stack e l hp hmem]
      simp
    · cases mids with
      | nil =>
        obtain ⟨e2, hnav, hp2⟩ := hc
        rw [resolveNode_ref_step fs f cur stack e l (mkRef e2) hp hmem hnav]
        exact ih [] l l.doc e2 (l :: stack) r hp2 ⟨e2, hnav, hp2⟩
      | cons b bs =>
        obtain ⟨⟨e2, hnav, hp2⟩, hrest⟩ := hc
        rw [resolveNode_ref_step fs f cur stack e l (mkRef e2) hp hmem hnav]
        have hcyc : chainTo fs b (bs ++ [l]) b :=
          chainTo_snoc fs bs b l b hrest ⟨e2, hnav, hp2⟩
        exact ih (bs ++ [l]) b l.doc e2 (l :: stack) r hp2 hcyc

/-- `m` occurs in `n` at a position reference resolution visits structurally:
`n` itself, or below it through sequence elements and mapping values. -/
inductive Occurs : Node → Node → Prop
  | refl (n : Node) : Occurs n n
  | arr {xs : List Node} {x m : Node} : x ∈ xs → Occurs x m → Occurs (.arr xs) m
  | obj {es : List (String × Node)} {e : String × Node} {m : Node} :
      e ∈ es → Occurs e.2 m → Occurs (.obj es) m

/-- A string node contains only itself. -/
theorem occurs_str {s : String} {m : Node} (h : Occurs (.str s) m) : m = .str s := by
  cases h
  rfl

/-- A node recognized as a reference is exactly a reference node. -/
theorem isRef_some {n : Node} {e : String} (h : isRef n = some e) : n = mkRef e := by
  unfold isRef at h
  split at h
  · rename_i k e2
    by_cases hk : k = "$ref"
    · rw [if_pos hk] at h
      injection h with h2
      rw [hk, h2]
      rfl
    · rw [if_neg hk] at h
      exact Option.noConfusion h
  · exact Option.noConfusion h

/-- If a monadic map over `Except` succeeds, it succeeded on every element. -/
theorem mapM_ok_forall {α β : Type} (g : α → Except GenError β) :
    ∀ (xs : List α) (ys : List β), xs.mapM g = .ok ys → ∀ x ∈ xs, ∃ y, g x = .ok y := by
  intro xs
  induction xs with
  | nil =>
    intro ys _ x hx
    cases hx
  | cons a as ih =>
    intro ys h x hx
    rw [List.mapM_cons] at h
    cases hga : g a with
    | error er =>
      rw [hga, except_bind_error] at h
      exact absurd h (by simp)
    | ok b =>
      rw [hga, except_bind_ok] at h
      cases hmas : as.mapM g with
      | error er =>
        rw [hmas, except_bind_error] at h
        exact absurd h (by simp)
      | ok bs =>
        rcases List.mem_cons.mp hx with rfl | hx2
        · exact ⟨b, hga⟩
        · exact ih bs hmas x hx2

/-- Unfolding: resolving a non-reference sequence node maps resolution over
its elements. -/
theorem resolveNode_arr (fs : SpecFS) (fuel : Nat) (cur : String) (stack : List Loc)
    (xs : List Node) :
    resolveNode fs (fuel + 1) cur stack (.arr xs) =
      Node.arr <$> xs.mapM (resolveNode fs fuel cur stack) := rfl

/-- Unfolding: resolving a non-reference mapping node maps resolution over
its entry values. -/
theorem resolveNode_obj (fs : SpecFS) (fuel : Nat) (cur : String) (stack : List Loc)
    (es : List (String × Node)) (hir : isRef (.obj es) = none) :
    resolveNode fs (fuel + 1) cur stack (.obj es) =
      Node.obj <$> es.mapM
        (fun e => (resolveNode fs fuel cur stack e.2).map (fun v => (e.1, v))) := by
  conv_lhs => simp only [resolveNode]
  rw [hir]

/-- If a node resolves successfully, every structurally contained node also
resolves successfully (with the same document and stack, at some fuel):
errors below a node propagate up through the element and entry maps. -/
theorem resolve_ok_descendant (fs : SpecFS) {n m : Node} (hocc : Occurs n m) :
    ∀ (fuel : Nat) (cur : String) (stack : List Loc) (r : Node),
      resolveNode fs fuel cur stack n = .ok r →
      ∃ fl r2, resolveNode fs fl cur stack m = .ok r2 := by
  induction hocc with
  | refl n =>
    intro fuel cur stack r h
    exact ⟨fuel, r, h⟩
  | @arr xs x m hx _ ih =>
    intro fuel cur stack r h
    cases fuel with
    | zero => exact absurd h (by simp [resolveNode])
    | succ f =>
      rw [resolveNode_arr] at h
      cases hm2 : xs.mapM (resolveNode fs f cur stack) with
      | error er =>
        rw [hm2] at h
        exact absurd h (by simp [Except.map])
      | ok ys =>
        obtain ⟨y, hy⟩ := mapM_ok_forall (resolveNode fs f cur stack) xs ys hm2 x hx
        exact ih f cur stack y hy
  | @obj es e m he hsub ih =>
    intro fuel cur stack r h
    cases fuel with
    | zero => exact absurd h (by simp [resolveNode])
    | succ f =>
      cases hir : isRef (.obj es) with
      | some ex =>
        have hes : es = [("$ref", Node.str ex)] := by
          have hn := isRef_some hir
          injection hn with h2
        have he2 : e = ("$ref", Node.str ex) := by
          rw [hes] at he
          simpa using he
        have hsub2 : Occurs (Node.str ex) m := by
          rw [he2] at hsub
          exact hsub
        have hm2 : m = Node.str ex := occurs_str hsub2
        subst hm2
        exact ⟨1, Node.str ex, rfl⟩
      | none =>
        rw [resolveNode_obj fs f cur stack es hir] at h
        cases hm2 : es.mapM
            (fun e => (resolveNode fs f cur stack e.2).map (fun v => (e.1, v))) with
        | error er =>
          rw [hm2] at h
          exact absurd h (by simp [Except.map])
        | ok ys =>
          obtain ⟨y, hy⟩ := mapM_ok_forall _ es ys hm2 e he
          cases hres : resolveNode fs f cur stack e.2 with
          | error er =>
            rw [hres] at hy
            exact absurd hy (by simp [Except.map])
          | ok v => exact ih f cur stack v hres

/-- C7: for every document that contains, anywhere in its tree (at the root
or nested below sequence elements and mapping values), a reference node
whose location chain cycles back on itself directly or transitively:
the cycle is detected as a circular-reference error whenever that reference
is resolved (for any in-progress stack, with fuel beyond the chain length) —
never silently truncated; the document's resolution fails at every fuel (it
can never succeed, since the failure propagates up from the cyclic
reference); and the batch run records the document as failed and writes no
output artifact for it. -/
theorem claim_C7_cycle_detected (fs : SpecFS) (f e : String) (fuel : Nat)
    (content : Node) (l0 : Loc) (mids : List Loc)
    (hlook : List.lookup f fs = some content)
    (hocc : Occurs content (mkRef e))
    (hparse : parseLoc f e = l0)
    (hchain : chainTo fs l0 mids l0)
    (hel : eligibleName f = true)
    (hmem : f ∈ fs.map Prod.fst) :
    (∀ (stack : List Loc) (fl : Nat), mids.length + 2 ≤ fl →
       ∃ c, resolveNode fs fl f stack (mkRef e) = .error (.circularRef c)) ∧
    (∃ err, dereferenceSpec fs fuel f content = .error err) ∧
    outcomeOf (generateSpecs fs none fuel) f = some none ∧
    artifactFor (generateSpecs fs none fuel) f = some none := by
  have hnever : ∀ (fl : Nat) (r : Node), resolveNode fs fl f [] content ≠ .ok r := by
    intro fl r hok
    obtain ⟨fl2, r2, hr2⟩ := resolve_ok_descendant fs hocc fl f [] r hok
    exact resolve_cycle_never_ok fs fl2 mids l0 f e [] r2 hparse hchain hr2
  obtain ⟨err, herr⟩ : ∃ err, resolveNode fs fuel f [] content = .error err := by
    cases hres : resolveNode fs fuel f [] content with
    | ok r => exact absurd hres (hnever fuel r)
    | error err => exact ⟨err, rfl⟩
  have hder : dereferenceSpec fs fuel f content = .error err := by
    unfold dereferenceSpec
    rw [herr]
  have hproc : processFile fs fuel f = none := by
    unfold processFile
    rw [hlook]
    show (dereferenceSpec fs fuel f content).toOption = none
    rw [hder]
    rfl
  have hd2 : f ∈ eligibleFiles fs := List.mem_filter.mpr ⟨hmem, hel⟩
  have hne : eligibleFiles fs ≠ [] := List.ne_nil_of_mem hd2
  have hg : generateSpecs fs none fuel =
      .ran false ((eligibleFiles fs).map (fun n => (n, processFile fs fuel n))) := by
    simp [generateSpecs, fullRun, hne]
  have hout : outcomeOf (generateSpecs fs none fuel) f = some none := by
    rw [hg]
    have hl := lookup_map_self (processFile fs fuel) (eligibleFiles fs) f hd2
    rw [hproc] at hl
    exact hl
  refine ⟨?_, ⟨err, hder⟩, hout, ?_⟩
  · intro stack fl hfl
    exact resolve_chain_circular fs mids l0 l0 f e stack fl hfl hparse hchain (Or.inl rfl)
  · unfold artifactFor
    rw [hout]
    rfl

/-- The document with an internal reference cycle: its nodes `a` and `b`
reference each other below the root. -/
def c7defs : Node := .obj [("a", mkRef "#/b"), ("b", mkRef "#/a")]

/-- Concrete cyclic spec directory for the C7 witness: `defs.yaml` holds the
internal A-references-B-references-A cycle, and `a.yaml`'s root references
into it. -/
def c7fs : SpecFS :=
  [("a.yaml", mkRef "defs.yaml#/a"), ("defs.yaml", c7defs)]

theorem claim_C7_cycle_detected_witness :
    (List.lookup "defs.yaml" c7fs = some c7defs ∧
     Occurs c7defs (mkRef "#/b") ∧
     parseLoc "defs.yaml" "#/b" = ⟨"defs.yaml", ["b"]⟩ ∧
     chainTo c7fs ⟨"defs.yaml", ["b"]⟩ [⟨"defs.yaml", ["a"]⟩] ⟨"defs.yaml", ["b"]⟩ ∧
     eligibleName "defs.yaml" = true ∧
     "defs.yaml" ∈ c7fs.map Prod.fst) ∧
    ((∀ (stack : List Loc) (fl : Nat),
        [(⟨"defs.yaml", ["a"]⟩ : Loc)].length + 2 ≤ fl →
        ∃ c, resolveNode c7fs fl "defs.yaml" stack (mkRef "#/b") =
          .error (.circularRef c)) ∧
     (∃ err, dereferenceSpec c7fs 6 "defs.yaml" c7defs = .error err) ∧
     outcomeOf (generateSpecs c7fs none 6) "defs.yaml" = some none ∧
     artifactFor (generateSpecs c7fs none 6) "defs.yaml" = some none) :=
  ⟨⟨by decide,
    @Occurs.obj [("a", mkRef "#/b"), ("b", mkRef "#/a")] ("a", mkRef "#/b") (mkRef "#/b")
      (by decide) (Occurs.refl (mkRef "#/b")),
    by decide,
    ⟨⟨"#/a", by decide, by decide⟩, ⟨"#/b", by decide, by decide⟩⟩,
    by decide, by decide⟩,
   claim_C7_cycle_detected c7fs "defs.yaml" "#/b" 6 c7defs ⟨"defs.yaml", ["b"]⟩
     [⟨"defs.yaml", ["a"]⟩] (by decide)
     (@Occurs.obj [("a", mkRef "#/b"), ("b", mkRef "#/a")] ("a", mkRef "#/b") (mkRef "#/b")
       (by decide) (Occurs.refl (mkRef "#/b")))
     (by decide)
     ⟨⟨"#/a", by decide, by decide⟩, ⟨"#/b", by decide, by decide⟩⟩
     (by decide) (by decide)⟩
